import Mathlib

/-!
Verification development for the yangify repository (networktocode/yangify).

This file shallowly embeds the four core components of the repository in Lean:

* `ModelFilter` (src/yangify/model_filter/__init__.py)
* the Translate Engine (src/yangify/translator/__init__.py)
* the Parse Engine (src/yangify/parser/__init__.py)
* the `ConfigTree` command-tree builder (src/yangify/translator/config_tree.py)
* the indentation text parser (src/yangify/parser/text_tree.py)

Python conventions are mapped as follows:

* yangson instance trees (candidate/running) are embedded as `YValue`, a
  JSON-like value: scalars are strings, objects are ordered association
  lists, arrays are lists.  `InstanceNode.goto` raising `NonexistentInstance`
  is embedded as a `goto` function returning `Option YValue`.
* Python `dict` objects with string keys are ordered association lists;
  `d[k] = v` is `updA` (replace in place, or append when the key is new),
  which matches CPython dict insertion-order semantics.
* `copy.deepcopy` of a dict is the identity on the embedded value.
* Exceptions used for absence (`NonexistentInstance`) are `Option`.
* Mutation of attributes (`self.yy.keys = ...`, `self.yy.native = ...`) is
  explicit state passing: functions that mutate state in the source take the
  state as an argument and return the updated state.  Child Parser/Translator
  instances receive the current value of `keys`/`native`; the engine never
  mutates a shared dict in place (all its in-place writes happen on freshly
  deep-copied dicts), so the child's state never flows back to the caller.
-/

/-- JSON-like value embedding yangson instance values: scalar (string),
object (ordered assoc list) or array. -/
inductive YValue where
  | s (v : String)
  | obj (fields : List (String × YValue))
  | arr (elems : List YValue)

-- Decidable equality for `YValue` (mutual recursion through the nested
-- lists; `deriving` cannot handle the nesting).
mutual

def YValue.decEq : (a b : YValue) → Decidable (a = b)
  | .s x, .s y =>
    match String.decEq x y with
    | isTrue h => isTrue (by rw [h])
    | isFalse h => isFalse (fun hh => h (by cases hh; rfl))
  | .s _, .obj _ => isFalse (fun h => YValue.noConfusion h)
  | .s _, .arr _ => isFalse (fun h => YValue.noConfusion h)
  | .obj _, .s _ => isFalse (fun h => YValue.noConfusion h)
  | .obj fs, .obj gs =>
    match YValue.decEqFields fs gs with
    | isTrue h => isTrue (by rw [h])
    | isFalse h => isFalse (fun hh => h (by cases hh; rfl))
  | .obj _, .arr _ => isFalse (fun h => YValue.noConfusion h)
  | .arr _, .s _ => isFalse (fun h => YValue.noConfusion h)
  | .arr _, .obj _ => isFalse (fun h => YValue.noConfusion h)
  | .arr es, .arr es' =>
    match YValue.decEqList es es' with
    | isTrue h => isTrue (by rw [h])
    | isFalse h => isFalse (fun hh => h (by cases hh; rfl))

def YValue.decEqFields :
    (a b : List (String × YValue)) → Decidable (a = b)
  | [], [] => isTrue rfl
  | [], _ :: _ => isFalse (fun h => List.noConfusion h)
  | _ :: _, [] => isFalse (fun h => List.noConfusion h)
  | (k, v) :: r, (k', v') :: r' =>
    match String.decEq k k', YValue.decEq v v', YValue.decEqFields r r' with
    | isTrue h1, isTrue h2, isTrue h3 => isTrue (by rw [h1, h2, h3])
    | isFalse h1, _, _ => isFalse (fun hh => h1 (by cases hh; rfl))
    | _, isFalse h2, _ => isFalse (fun hh => h2 (by cases hh; rfl))
    | _, _, isFalse h3 => isFalse (fun hh => h3 (by cases hh; rfl))

def YValue.decEqList : (a b : List YValue) → Decidable (a = b)
  | [], [] => isTrue rfl
  | [], _ :: _ => isFalse (fun h => List.noConfusion h)
  | _ :: _, [] => isFalse (fun h => List.noConfusion h)
  | v :: r, v' :: r' =>
    match YValue.decEq v v', YValue.decEqList r r' with
    | isTrue h1, isTrue h2 => isTrue (by rw [h1, h2])
    | isFalse h1, _ => isFalse (fun hh => h1 (by cases hh; rfl))
    | _, isFalse h2 => isFalse (fun hh => h2 (by cases hh; rfl))

end

instance : DecidableEq YValue := YValue.decEq

/-- One step of a yangson `InstanceRoute`: a member name, or an entry-keys
selector `EntryKeys({key: value})` (yangify only ever builds single-key
selectors, see `Translator._append_child_path`). -/
inductive Step where
  | member (name : String)
  | entryKeys (key : String) (value : YValue)
deriving DecidableEq

/-- Ordered association-list lookup (Python `d[k]` / `k in d`). -/
def lookupA : List (String × YValue) → String → Option YValue
  | [], _ => none
  | (k, v) :: rest, n => if k = n then some v else lookupA rest n

/-- Python dict assignment `d[k] = v`: replace the value in place when the
key exists, otherwise append, preserving insertion order. -/
def updA (m : List (String × YValue)) (k : String) (v : YValue) :
    List (String × YValue) :=
  match m with
  | [] => [(k, v)]
  | (k', v') :: rest => if k' = k then (k, v) :: rest else (k', v') :: updA rest k v

/-- Selecting an array entry by key-leaf value, as yangson's
`EntryKeys.goto_step` does: the first object entry whose member `key`
equals `kv`. -/
def findEntry : List YValue → String → YValue → Option YValue
  | [], _, _ => none
  | e :: rest, k, kv =>
    match e with
    | .obj fs => if lookupA fs k = some kv then some e else findEntry rest k kv
    | _ => findEntry rest k kv

/-- Embedding of yangson `InstanceNode.goto`: navigate a value along an
instance route; `none` embeds the `NonexistentInstance` exception. -/

def goto (v : YValue) : List Step → Option YValue
  | [] => some v
  | .member n :: rest =>
    match v with
    | .obj fs =>
      match lookupA fs n with
      | some v' => goto v' rest
      | none => none
    | _ => none
  | .entryKeys k kv :: rest =>
    match v with
    | .arr es =>
      match findEntry es k kv with
      | some e => goto e rest
      | none => none
    | _ => none

/-! ## ModelFilter (src/yangify/model_filter/__init__.py) -/

/-- Embedding of Python `str.startswith`: character-level prefix test.
(Lean's own `String.startsWith` goes through byte positions and is not
kernel-reducible, so the embedding works on the character list.) -/
def pyStartsWith (s pre : String) : Bool :=
  pre.data.isPrefixOf s.data

/-- Embedding of `ModelFilter`.  The fields mirror the constructor's
attributes `self.include` / `self.exclude` (`include` is a Lean keyword,
hence the shortened field names). -/
structure ModelFilter where
  incl : List String
  excl : List String

/-- Embedding of `ModelFilter.__init__`: `self.include = include or [""]`
(an empty, i.e. falsy, include list is replaced by `[""]`) and
`self.exclude = exclude`. -/
def ModelFilter.make (inc exc : List String) : ModelFilter :=
  ⟨if inc.isEmpty then [""] else inc, exc⟩

/-- Embedding of `ModelFilter._check_inc`:
`inc.startswith(path) or path.startswith(inc)`. -/
def ModelFilter.check_inc (path inc : String) : Bool :=
  pyStartsWith inc path || pyStartsWith path inc

/-- Embedding of `ModelFilter.check`:
`any(_check_inc(path, i) for i in include) and path not in exclude`. -/
def ModelFilter.check (mf : ModelFilter) (path : String) : Bool :=
  mf.incl.any (fun i => ModelFilter.check_inc path i) && !(decide (path ∈ mf.excl))

/-! ## ConfigTree (src/yangify/translator/config_tree.py) -/

/-- A child of a `ConfigTree` node: either a literal command line (added by
`add_command`) or a nested section (added by `new_section`).  A `ConfigTree`
object itself is a header (``None`` for the root) plus its ordered children,
i.e. a `sec`. -/
inductive CEntry where
  | cmd (line : String)
  | sec (header : Option String) (children : List CEntry)

/-- Embedding of the membership test `child not in self._children` performed
by `add_command` for a string child: Python `==` between a `str` and a
`ConfigTree` instance is `False`, so only literal children are compared. -/
def cmdMem (line : String) : List CEntry → Bool
  | [] => false
  | .cmd l :: rest => if l = line then true else cmdMem line rest
  | .sec _ _ :: rest => cmdMem line rest

/-- Embedding of `ConfigTree.add_command` acting on the `_children` list:
`if child not in self._children: self._children.append(child)`. -/
def add_command (children : List CEntry) (line : String) : List CEntry :=
  if cmdMem line children then children else children ++ [.cmd line]

/-- Embedding of `ConfigTree.new_section` acting on the `_children` list:
append a fresh empty section with the given header. -/
def new_section (children : List CEntry) (header : String) : List CEntry :=
  children ++ [.sec (some header) []]

/-- Header contribution to `to_string`: `if self._header: text += header + "\n"`
(Python truthiness: `None` and the empty string contribute nothing). -/
def headerText : Option String → String
  | none => ""
  | some h => if h = "" then "" else h ++ "\n"

mutual

/-- Embedding of `ConfigTree.to_string`: header line (if truthy) followed by
each child's own string form, in order; literal children contribute
`f"{c}\n"`, section children contribute their own `to_string`. -/
def CEntry.to_string : CEntry → String
  | .cmd line => line ++ "\n"
  | .sec h cs => headerText h ++ CEntry.children_string cs

/-- The `for c in self._children` concatenation loop of `to_string`. -/
def CEntry.children_string : List CEntry → String
  | [] => ""
  | c :: rest => CEntry.to_string c ++ CEntry.children_string rest

end

/-! ## Translate Engine helpers (src/yangify/translator/__init__.py)

The per-traversal constants of a translator: `self.yy.candidate` (a root
instance), `self.yy.running` (`None` when not merging) and `self.yy.replace`.
They are shared unchanged by every nested translator instance. -/

structure Ctx where
  candidate : YValue
  running : Option YValue
  replaceFlag : Bool

/-- Embedding of `Translator._obj_changed`: the running value at the route
(`None` when `running` is `None` or navigation raises) compared with the
candidate value at the route (`None` when navigation raises). -/
def obj_changed (ctx : Ctx) (irt : List Step) : Bool :=
  let running : Option YValue :=
    match ctx.running with
    | none => none
    | some r => goto r irt
  let candidate : Option YValue := goto ctx.candidate irt
  decide (running ≠ candidate)

/-- Embedding of `Translator._present_in_candidate`. -/
def present_in_candidate (ctx : Ctx) (irt : List Step) : Bool :=
  (goto ctx.candidate irt).isSome

/-- Embedding of `Translator._present_in_running` (`if self.yy.running:`
is `False` exactly when `running` is `None`; instance nodes are truthy). -/
def present_in_running (ctx : Ctx) (irt : List Step) : Bool :=
  match ctx.running with
  | some r => (goto r irt).isSome
  | none => false

/-- Embedding of `Translator._obj_remove_running`: present in `running` and
absent from `candidate` (and `False` whenever `running` is `None`). -/
def obj_remove_running (ctx : Ctx) (irt : List Step) : Bool :=
  match ctx.running with
  | none => false
  | some r =>
    match goto r irt with
    | none => false
    | some _ =>
      match goto ctx.candidate irt with
      | none => true
      | some _ => false

/-- Embedding of `Translator._obj_forward_progress_leaf`. -/
def obj_forward_progress_leaf (ctx : Ctx) (p : List Step) : Bool :=
  if ctx.replaceFlag then present_in_candidate ctx p
  else obj_changed ctx p || obj_remove_running ctx p

/-- Embedding of `Translator._obj_forward_progress_container`. -/
def obj_forward_progress_container (ctx : Ctx) (p : List Step) : Bool :=
  present_in_candidate ctx p || present_in_running ctx p

/-- Embedding of `element.value[key]` for a list element (the source raises
`KeyError` for an element missing its key leaf; the default is never
exercised by well-keyed data). -/
def elemKeyValue (e : YValue) (k : String) : YValue :=
  match e with
  | .obj fs => (lookupA fs k).getD (.s "")
  | _ => .s ""

/-- Embedding of `Translator._append_child_path`: extend a route with
`EntryKeys({key: element.value[key]})` built from the list's first key
leaf. -/
def append_child_path (base : List Step) (keyName : String) (e : YValue) :
    List Step :=
  base ++ [Step.entryKeys keyName (elemKeyValue e keyName)]

/-- Embedding of `Translator._extract_key`. -/
def extract_key (keyName : String) (e : YValue) : YValue :=
  elemKeyValue e keyName

/-- Elements of the running list at a route, as `_process_list` and
`_process_leaf_list` compute `running`: `[]` when `self.yy.running` is
falsy or navigation raises `NonexistentInstance`. -/
def running_list_at (ctx : Ctx) (path : List Step) : List YValue :=
  match ctx.running with
  | none => []
  | some r =>
    match goto r path with
    | some (.arr es) => es
    | _ => []

/-- The running instance at a leaf-list route, as `_process_leaf_list`
computes `running` (the `[]` fallback of the source is falsy, like
`None` here). -/
def running_ll_at (ctx : Ctx) (lp : List Step) : Option YValue :=
  match ctx.running with
  | some r => goto r lp
  | none => none

/-- The `for element in running` loop body of `Translator._fill_to_remove`:
keep (in order) each running element whose key-derived route is not found
in the candidate root; when `candidate` was `None` every element is kept. -/
def fill_to_remove_loop (ctx : Ctx) (path : List Step) (keyName : String)
    (candPresent : Bool) : List YValue → List YValue
  | [] => []
  | e :: rest =>
    if candPresent then
      match goto ctx.candidate (append_child_path path keyName e) with
      | some _ => fill_to_remove_loop ctx path keyName candPresent rest
      | none => e :: fill_to_remove_loop ctx path keyName candPresent rest
    else e :: fill_to_remove_loop ctx path keyName candPresent rest

/-- Embedding of `Translator._fill_to_remove` (the computed value of
`self.yy.to_remove`): `[]` when `self.yy.running` is falsy, otherwise the
loop over the running list's elements.  `candList` is the `candidate`
argument (`None` when the candidate tree lacks the list). -/
def fill_to_remove (ctx : Ctx) (path : List Step) (keyName : String)
    (candList : Option YValue) (runList : List YValue) : List YValue :=
  match ctx.running with
  | none => []
  | some _ => fill_to_remove_loop ctx path keyName candList.isSome runList

/-- Embedding of `.raw_value()` on an optional leaf-list instance, with the
source's `if running else []` / `if candidate else []` falsy fallback. -/
def raw_list : Option YValue → List YValue
  | none => []
  | some (.arr es) => es
  | some _ => []

/-- Embedding of the list comprehension `[i for i in this if i not in other]`
(order-preserving difference). -/
def list_diff : List YValue → List YValue → List YValue
  | [], _ => []
  | i :: rest, other =>
    if i ∈ other then list_diff rest other else i :: list_diff rest other

/-- Embedding of `Translator._fill_to_remove_values` (the computed value of
`self.yy.values_to_remove`). -/
def fill_to_remove_values (cand run : Option YValue) : List YValue :=
  list_diff (raw_list run) (raw_list cand)

/-! ## Translator event model

The engine's observable actions are recorded as events: a leaf handler
call (`c(candidate)` in `_process_leaf`), a leaf-list handler call
(`c(candidate)` in `_process_leaf_list`), and the recursion into one list
element (`self.__class__(...)._process_container()` in `_process_list`,
recording the `keys` dict the fresh translator instance receives).
Result-building side effects happen inside user handlers and are outside
the engine. -/

inductive TEvent where
  | leafCall (p : List Step) (arg : Option YValue)
  | leafListCall (p : List Step) (arg : Option (List YValue))
  | elemRecurse (p : List Step) (keys : List (String × YValue))

/-- A user translator implementation, as far as the engine's `getattr`
dispatch observes it: `subs` are the attribute names bound to nested
`Translator` subclasses (with their own implementations), `accs` the
attribute names bound to leaf / leaf-list handler callables.  Name
transformation (`child.name.replace("-", "_")`) is left implicit: schema
names in the model are the transformed attribute names. -/
inductive TImpl where
  | mk (subs : List (String × TImpl)) (accs : List String)

/-- The nested translator classes of an implementation. -/
def TImpl.subs : TImpl → List (String × TImpl)
  | .mk s _ => s

/-- The leaf handler names of an implementation. -/
def TImpl.accs : TImpl → List String
  | .mk _ a => a

/-- Attribute lookup among nested translator classes
(`getattr(self, child_name, None)` in `Translator._get_child`). -/
def lookupImpl : List (String × TImpl) → String → Option TImpl
  | [], _ => none
  | (k, v) :: rest, n => if k = n then some v else lookupImpl rest n

/-- Embedding of `Translator._process_leaf`: append the leaf's member to
the route; stop when the forward-progress check fails; stop (logging
"not implemented") when no handler attribute exists; otherwise call the
handler with `None` when the leaf is removed from running, else with the
candidate value at the route. -/
def process_leaf (ctx : Ctx) (impl : TImpl) (path : List Step)
    (name : String) : List TEvent :=
  let leaf_path := path ++ [Step.member name]
  if obj_forward_progress_leaf ctx leaf_path then
    if impl.accs.contains name then
      [TEvent.leafCall leaf_path
        (if obj_remove_running ctx leaf_path then none
         else goto ctx.candidate leaf_path)]
    else []
  else []

/-- Embedding of `Translator._process_leaf_list`: forward-progress check;
`values_to_remove` is filled (visible to the `pre_process_leaf_list` hook,
not an engine event); stop when no handler exists; otherwise the handler
argument is `None` when removed-from-running, the candidate elements not
already in running when merging, and the full candidate sequence when
replacing. -/
def process_leaf_list (ctx : Ctx) (impl : TImpl) (path : List Step)
    (name : String) : List TEvent :=
  let leaf_path := path ++ [Step.member name]
  if obj_forward_progress_leaf ctx leaf_path then
    if impl.accs.contains name then
      [TEvent.leafListCall leaf_path
        (if obj_remove_running ctx leaf_path then none
         else if ctx.replaceFlag = false then
          some (list_diff (raw_list (goto ctx.candidate leaf_path))
            (raw_list (running_ll_at ctx leaf_path)))
         else some (raw_list (goto ctx.candidate leaf_path)))]
    else []
  else []

/-! ## Schema nodes

The external yangson schema, consumed read-only by both engines: every data
node carries a namespace, a name (already in `getattr` form, i.e. after
`name.replace("-", "_")`), its `data_path()` string, and its ordered data
children; a list node also carries its key-leaf names, a terminal node its
config/state classification. -/

inductive SNode where
  | container (ns name dpath : String) (children : List SNode)
  | group (ns name dpath : String) (children : List SNode)
  | slist (ns name dpath : String) (keyNames : List String)
      (children : List SNode)
  | leaf (ns name dpath : String) (cfg : Bool)
  | leafList (ns name dpath : String) (cfg : Bool)

/-- The node's namespace (`node.ns`). -/
def SNode.nsOf : SNode → String
  | .container ns _ _ _ => ns
  | .group ns _ _ _ => ns
  | .slist ns _ _ _ _ => ns
  | .leaf ns _ _ _ => ns
  | .leafList ns _ _ _ => ns

/-- The node's name (`node.name`, in attribute form). -/
def SNode.nameOf : SNode → String
  | .container _ n _ _ => n
  | .group _ n _ _ => n
  | .slist _ n _ _ _ => n
  | .leaf _ n _ _ => n
  | .leafList _ n _ _ => n

/-- The node's `data_path()` string. -/
def SNode.dpathOf : SNode → String
  | .container _ _ d _ => d
  | .group _ _ d _ => d
  | .slist _ _ d _ _ => d
  | .leaf _ _ d _ => d
  | .leafList _ _ d _ => d

/-- The first key-leaf name of a list node (`schema_node.keys[0][0]`; the
source raises `IndexError` on a keyless list, never exercised). -/
def SNode.firstKey : SNode → String
  | .slist _ _ _ ks _ => ks.headD ""
  | _ => ""

/-- All key-leaf names of a list node (`[e[0] for e in schema.keys]`). -/
def SNode.keyNamesOf : SNode → List String
  | .slist _ _ _ ks _ => ks
  | _ => []

/-! ## Translate Engine traversal (src/yangify/translator/__init__.py)

`t_process_container` embeds `Translator._process_container`,
`t_children` its `for child in self.yy.schema.data_children()` loop,
`t_group_children` the splice loop over a `GroupNode` child's children,
`t_container_node` embeds `Translator._process_container_node`, and
`t_process_list` (with its loop `t_list_elems`) embeds
`Translator._process_list`.  The `pre_process`/`post_process`/
`pre_process_list`/`post_process_list` hooks are `pass` in the base class
and produce no engine event.  `t_process_list` returns the events together
with the final value of the translator's `keys` attribute (mutated during
the loop and restored to `running_keys` afterwards). -/

/-- The element loop of `Translator._process_list`.  `snapshot` is
`running_keys` (the deep copy taken before the loop), `cur` the translator's
current `keys` attribute, and `recurse` the recursion
`self.__class__(...)._process_container()` into one element (the fresh
instance receives the freshly assigned `keys` dict). -/

def t_list_elems (ctx : Ctx) (path : List Step) (keyName dpath : String)
    (snapshot : List (String × YValue))
    (recurse : YValue → List (String × YValue) → List TEvent) :
    List YValue → List (String × YValue) →
      List TEvent × List (String × YValue)
  | [], cur => ([], cur)
  | e :: rest, cur =>
    let element_path := append_child_path path keyName e
    if !(obj_changed ctx element_path) && !ctx.replaceFlag then
      t_list_elems ctx path keyName dpath snapshot recurse rest cur
    else
      let new_keys := updA snapshot dpath (extract_key keyName e)
      let evs := TEvent.elemRecurse element_path new_keys :: recurse e new_keys
      let r := t_list_elems ctx path keyName dpath snapshot recurse rest new_keys
      (evs ++ r.1, r.2)

mutual

/-- Embedding of `Translator._process_container`: iterate the schema node's
data children (terminal nodes have none). -/
def t_process_container (ctx : Ctx) (impl : TImpl) (path : List Step)
    (keys : List (String × YValue)) (node : SNode) : List TEvent :=
  match node with
  | .container _ _ _ cs => t_children ctx impl path keys cs
  | .group _ _ _ cs => t_children ctx impl path keys cs
  | .slist _ _ _ _ cs => t_children ctx impl path keys cs
  | .leaf _ _ _ _ => []
  | .leafList _ _ _ _ => []
termination_by 4 * sizeOf node
decreasing_by all_goals (simp_wf <;> omega)

/-- The `for child in ... data_children()` dispatch loop of
`_process_container`: group children are spliced one level, containers and
lists go through `_process_container_node`, terminals through
`_process_leaf` / `_process_leaf_list`. -/
def t_children (ctx : Ctx) (impl : TImpl) (path : List Step)
    (keys : List (String × YValue)) : List SNode → List TEvent
  | [] => []
  | c :: rest =>
    (match c with
     | .container a b d cs2 =>
       t_container_node ctx impl path keys (.container a b d cs2)
     | .group _ _ _ gcs => t_group_children ctx impl path keys gcs
     | .slist a b d ks cs2 =>
       t_container_node ctx impl path keys (.slist a b d ks cs2)
     | .leaf _ n _ _ => process_leaf ctx impl path n
     | .leafList _ n _ _ => process_leaf_list ctx impl path n) ++
    t_children ctx impl path keys rest
termination_by cs => 4 * sizeOf cs + 1
decreasing_by all_goals (simp_wf <;> omega)

/-- The splice loop for a `GroupNode` child: every grandchild goes through
`_process_container_node`. -/
def t_group_children (ctx : Ctx) (impl : TImpl) (path : List Step)
    (keys : List (String × YValue)) : List SNode → List TEvent
  | [] => []
  | c :: rest =>
    t_container_node ctx impl path keys c ++
      t_group_children ctx impl path keys rest
termination_by cs => 4 * sizeOf cs + 1
decreasing_by all_goals (simp_wf <;> omega)

/-- Embedding of `Translator._process_container_node`: forward-progress
check for containers, then `_get_child` dispatch — a missing attribute is
logged "not implemented" and the subtree skipped; a container/group child
recurses via `_process_container`, a list child via `_process_list` (the
fresh child translator's final `keys` attribute is its own and is
discarded). -/
def t_container_node (ctx : Ctx) (impl : TImpl) (path : List Step)
    (keys : List (String × YValue)) (c : SNode) : List TEvent :=
  let node_path := path ++ [Step.member c.nameOf]
  if obj_forward_progress_container ctx node_path then
    match lookupImpl impl.subs c.nameOf with
    | some sub =>
      match c with
      | .container a b d cs2 =>
        t_process_container ctx sub node_path keys (.container a b d cs2)
      | .group a b d cs2 =>
        t_process_container ctx sub node_path keys (.group a b d cs2)
      | .slist a b d ks cs2 =>
        (t_process_list ctx sub node_path keys (.slist a b d ks cs2)).1
      | _ => []
    | none => []
  else []
termination_by 4 * sizeOf c + 3
decreasing_by all_goals (simp_wf <;> omega)

/-- Embedding of `Translator._process_list`: compute the candidate list
elements (`[]` when the candidate tree lacks the list), fill `to_remove`
(hook-visible state, no engine event), deep-copy `keys` into
`running_keys`, run the element loop, and restore `keys` to
`running_keys`. -/
def t_process_list (ctx : Ctx) (impl : TImpl) (path : List Step)
    (keys : List (String × YValue)) (node : SNode) :
    List TEvent × List (String × YValue) :=
  let elements := goto ctx.candidate path
  let running_keys := keys
  let elemList := match elements with | some (.arr es) => es | _ => []
  let r := t_list_elems ctx path node.firstKey node.dpathOf running_keys
    (fun e ks =>
      t_process_container ctx impl (append_child_path path node.firstKey e)
        ks node)
    elemList keys
  (r.1, running_keys)
termination_by 4 * sizeOf node + 2
decreasing_by all_goals (simp_wf <;> omega)

end

/-! ## List processing characterization (Translate Engine) -/

/-- The candidate list elements iterated by `_process_list`
(`elements = [] if elements is None else elements`). -/
def candidate_elems (ctx : Ctx) (path : List Step) : List YValue :=
  match goto ctx.candidate path with
  | some (.arr es) => es
  | _ => []

/-! ## Parse Engine (src/yangify/parser/__init__.py)

The parser is generic in the native data type `N`.  A user parser
implementation, as far as the engine's `getattr` dispatch observes it:
`subs` are attribute names bound to nested `Parser` subclasses, `accs`
attribute names bound to leaf accessors (functions of the current
`yy.native` and `yy.keys`; the `yy.extra` context is invariant and
omitted), and `ext` the `Yangify.extract_elements` hook yielding ordered
(key, native slice) pairs — the source raises `NotImplementedError` when a
list is reached without it, so the model requires it (the unreachable
default returns no elements).  The generator is modelled as an eagerly
produced finite sequence.  `pre_process`/`post_process`/`init`/`post`
default to `pass`. -/

/-- Generic association-list lookup (Python `getattr` / `d[k]`). -/
def lookupL {α : Type _} : List (String × α) → String → Option α
  | [], _ => none
  | (k, v) :: rest, n => if k = n then some v else lookupL rest n

/-- Generic dict assignment `d[k] = v` preserving insertion order. -/
def updL {α : Type _} (m : List (String × α)) (k : String) (v : α) :
    List (String × α) :=
  match m with
  | [] => [(k, v)]
  | (k', v') :: rest =>
    if k' = k then (k, v) :: rest else (k', v') :: updL rest k v

/-- A user parser implementation (see the section comment). -/
inductive PImpl (N : Type) where
  | mk (subs : List (String × PImpl N))
       (accs : List (String × (N → List (String × String) → Option YValue)))
       (ext : N → List (String × String) → List (String × N))

/-- The nested parser classes of an implementation. -/
def PImpl.subs {N : Type} : PImpl N → List (String × PImpl N)
  | .mk s _ _ => s

/-- The leaf accessors of an implementation. -/
def PImpl.accs {N : Type} :
    PImpl N → List (String × (N → List (String × String) → Option YValue))
  | .mk _ a _ => a

/-- The `extract_elements` hook of an implementation. -/
def PImpl.ext {N : Type} : PImpl N → (N → List (String × String) → List (String × N))
  | .mk _ _ e => e

/-- A value of the parse result tree (the nested dict the parser builds). -/
inductive PRes where
  | val (v : YValue)
  | obj (fields : List (String × PRes))
  | arr (elems : List PRes)

/-- Embedding of `Parser._get_key_name`: qualify the child's name with its
namespace exactly when it differs from the parent's. -/
def get_key_name (parentNs : String) (c : SNode) : String :=
  if c.nsOf = parentNs then c.nameOf else c.nsOf ++ ":" ++ c.nameOf

/-- The config/state classification of a terminal node (`child.config`). -/
def SNode.cfgOf : SNode → Bool
  | .leaf _ _ _ cfg => cfg
  | .leafList _ _ _ cfg => cfg
  | _ => true

/-- Embedding of the Leaf/LeafList branch of `Parser._process_container`:
when the child's name is not among the inherited key names, skip it if the
model filter excludes its path, and skip it if
`child.config and not config or not child.config and not state`; otherwise
look up the accessor (`None` means "not implemented", logged and skipped),
call it, and attach a non-`None` result under the qualified name.  The
result is the attached (name, value) pair, or `none` when nothing is
attached. -/
def p_leaf_child {N : Type} (mf : ModelFilter)
    (accs : List (String × (N → List (String × String) → Option YValue)))
    (native : N) (keys : List (String × String)) (config state : Bool)
    (inh : List String) (parentNs : String) (child : SNode) :
    Option (String × YValue) :=
  let pass :=
    if inh.contains child.nameOf then true
    else if !(mf.check child.dpathOf) then false
    else if (child.cfgOf && !config) || (!child.cfgOf && !state) then false
    else true
  if pass then
    match lookupL accs child.nameOf with
    | some f =>
      match f native keys with
      | some v => some (get_key_name parentNs child, v)
      | none => none
    | none => none
  else none

/-- The element loop of `Parser._process_list`: for each extracted
(key, native slice) pair, `keys` is reset to a deep copy of the pre-loop
snapshot plus this element's key, `native` is set to the slice, and
`_process_container` runs on the same instance; its result dict is appended
(even when empty). -/
def p_list_elems {N : Type} (dpath : String)
    (old_keys : List (String × String))
    (recurse : N → List (String × String) → List (String × PRes)) :
    List (String × N) → List PRes
  | [] => []
  | (ek, en) :: rest =>
    PRes.obj (recurse en (updL old_keys dpath ek)) ::
      p_list_elems dpath old_keys recurse rest

mutual

/-- Embedding of `Parser._process_container`: `pre_process` hook (a
`pass`), the container-level model-filter check (an excluded container
returns the empty result immediately), the children dispatch loop, and
`post_process`.  Terminal schema nodes have no data children. -/
def p_process_container {N : Type} (mf : ModelFilter) (impl : PImpl N)
    (native : N) (keys : List (String × String)) (config state : Bool)
    (inh : List String) (node : SNode) : List (String × PRes) :=
  if !(mf.check node.dpathOf) then []
  else
    match node with
    | .container a _ _ cs =>
      p_children mf impl native keys config state inh a [] cs
    | .group a _ _ cs =>
      p_children mf impl native keys config state inh a [] cs
    | .slist a _ _ _ cs =>
      p_children mf impl native keys config state inh a [] cs
    | .leaf _ _ _ _ => []
    | .leafList _ _ _ _ => []
termination_by 4 * sizeOf node
decreasing_by all_goals (simp_wf <;> omega)

/-- The `for child in ... data_children()` loop of
`Parser._process_container`, threading the `result` dict: a Container child
recurses with empty inherited keys and attaches a non-empty result under
the qualified name; a Group child splices its children; a List child runs
`_process_list` on the child parser (whose own `keys`/`native` attributes
are discarded with the instance) and attaches a non-empty element list;
Leaf/LeafList children go through the accessor branch.  A child with no
matching attribute is logged "not implemented" and skipped. -/
def p_children {N : Type} (mf : ModelFilter) (impl : PImpl N) (native : N)
    (keys : List (String × String)) (config state : Bool) (inh : List String)
    (parentNs : String) (acc : List (String × PRes)) :
    List SNode → List (String × PRes)
  | [] => acc
  | c :: rest =>
    let acc2 :=
      match c with
      | .container a b d cs2 =>
        match lookupL impl.subs (SNode.container a b d cs2).nameOf with
        | some sub =>
          let r := p_process_container mf sub native keys config state []
            (SNode.container a b d cs2)
          if r.isEmpty then acc
          else updL acc (get_key_name parentNs (SNode.container a b d cs2))
            (PRes.obj r)
        | none => acc
      | .group a b d gcs =>
        p_group_children mf impl native keys config state a acc gcs
      | .slist a b d ks cs2 =>
        match lookupL impl.subs (SNode.slist a b d ks cs2).nameOf with
        | some sub =>
          let r := (p_process_list mf sub native keys config state
            (SNode.slist a b d ks cs2)).1
          if r.isEmpty then acc
          else updL acc (get_key_name parentNs (SNode.slist a b d ks cs2))
            (PRes.arr r)
        | none => acc
      | .leaf a b d cfg =>
        match p_leaf_child mf impl.accs native keys config state inh parentNs
          (SNode.leaf a b d cfg) with
        | some (k, v) => updL acc k (PRes.val v)
        | none => acc
      | .leafList a b d cfg =>
        match p_leaf_child mf impl.accs native keys config state inh parentNs
          (SNode.leafList a b d cfg) with
        | some (k, v) => updL acc k (PRes.val v)
        | none => acc
    p_children mf impl native keys config state inh parentNs acc2 rest
termination_by cs => 4 * sizeOf cs + 1
decreasing_by all_goals (simp_wf <;> omega)

/-- The Group splice loop of `Parser._process_container`: every grandchild
is dispatched through `_get_child` and `_process_container` (the group's
namespace qualifies the grandchild names). -/
def p_group_children {N : Type} (mf : ModelFilter) (impl : PImpl N)
    (native : N) (keys : List (String × String)) (config state : Bool)
    (parentNs : String) (acc : List (String × PRes)) :
    List SNode → List (String × PRes)
  | [] => acc
  | gc :: rest =>
    let acc2 :=
      match lookupL impl.subs gc.nameOf with
      | some sub =>
        let r := p_process_container mf sub native keys config state [] gc
        if r.isEmpty then acc
        else updL acc (get_key_name parentNs gc) (PRes.obj r)
      | none => acc
    p_group_children mf impl native keys config state parentNs acc2 rest
termination_by cs => 4 * sizeOf cs + 3
decreasing_by all_goals (simp_wf <;> omega)

/-- Embedding of `Parser._process_list`: deep-copy `keys` into `old_keys`
and remember `old_native`, compute the key-leaf names, consume
`extract_elements`, run the element loop, and restore `keys` and `native`.
The returned triple is (result list, final `keys`, final `native`). -/
def p_process_list {N : Type} (mf : ModelFilter) (impl : PImpl N)
    (native : N) (keys : List (String × String)) (config state : Bool)
    (node : SNode) : List PRes × List (String × String) × N :=
  let old_keys := keys
  let old_native := native
  let knames := node.keyNamesOf
  (p_list_elems node.dpathOf old_keys
    (fun en ks =>
      p_process_container mf impl en ks config state knames node)
    (impl.ext native keys), old_keys, old_native)
termination_by 4 * sizeOf node + 2
decreasing_by all_goals (simp_wf <;> omega)

end

/-- A concrete leaf accessor used by the C6 witness. -/
def cexAcc : Unit → List (String × String) → Option YValue :=
  fun _ _ => some (YValue.s "v")

/-! ## Indentation text parser (src/yangify/parser/text_tree.py)

Lines are character lists (`String.data`), so that Python's `split(" ")`,
`rstrip()` and `lstrip()` can be embedded character by character.  The
parsed structure is a nested ordered dict whose values are sub-dicts,
`#text` strings, the `#standalone` flag, or the `#list` auxiliary array.
In the source a `#list` entry is `{first_word: o}` where `o` aliases
`obj[first_word]` (and keeps reflecting later mutations of it); the pure
model records the first word, the sub-map being the parent's entry at that
word. -/

/-- A node of the parsed indentation tree. -/
inductive TTree where
  | s (v : String)
  | b (v : Bool)
  | m (entries : List (String × TTree))
  | l (words : List String)

/-- Embedding of Python `str.split(" ")` (single-space separator, no run
merging; the empty string yields `[""]`). -/
def splitSp : List Char → List (List Char)
  | [] => [[]]
  | ch :: rest =>
    match splitSp rest with
    | [] => [[]]
    | w :: ws => if ch = ' ' then [] :: w :: ws else (ch :: w) :: ws

/-- Embedding of `" ".join(words)`. -/
def joinSp : List (List Char) → List Char
  | [] => []
  | [w] => w
  | w :: rest => w ++ ' ' :: joinSp rest

/-- Embedding of Python `str.rstrip()`. -/
def rstripL (s : List Char) : List Char :=
  (s.reverse.dropWhile (fun c => c.isWhitespace)).reverse

/-- Embedding of Python `str.lstrip()`. -/
def lstripL (s : List Char) : List Char :=
  s.dropWhile (fun c => c.isWhitespace)

/-- Embedding of Python `dict.update`: merge `data` into `m`, overwriting
existing keys in place and appending new ones. -/
def pyDictUpdate (m data : List (String × TTree)) : List (String × TTree) :=
  data.foldl (fun acc kv => updL acc kv.1 kv.2) m

/-- The `while True` descent loop of `_attach_data_to_path` from its second
iteration on (no `#list` handling: the `first` flag is already `False`):
at each level set `o["#text"]` to the joined remaining words, descend into
`o[p]` (a fresh dict when absent), and at the last word merge `data` into
`o[p]` (or assign it) and set its `#standalone` flag. -/
def attachAt (o data : List (String × TTree)) :
    List (List Char) → List (String × TTree)
  | [] => o
  | [p] =>
    let pw := String.mk p
    let o1 := updL o "#text" (TTree.s pw)
    let merged :=
      match lookupL o1 pw with
      | some (TTree.m mdata) => pyDictUpdate mdata data
      | _ => data
    updL o1 pw (TTree.m (updL merged "#standalone" (TTree.b true)))
  | p :: q :: rest =>
    let pw := String.mk p
    let o1 := updL o "#text" (TTree.s (String.mk (joinSp (p :: q :: rest))))
    let sub :=
      match lookupL o1 pw with
      | some (TTree.m msub) => msub
      | _ => []
    updL o1 pw (TTree.m (attachAt sub data (q :: rest)))

/-- The `if "#list" not in obj: obj["#list"] = []` prologue of
`_attach_data_to_path`. -/
def ensure_list (obj : List (String × TTree)) : List (String × TTree) :=
  if (lookupL obj "#list").isNone then updL obj "#list" (TTree.l []) else obj

/-- The `obj["#list"].append({p: o})` step of `_attach_data_to_path` (the
appended dict aliases `obj[p]`; the model records the word). -/
def append_list_word (obj2 : List (String × TTree)) (p : List Char) :
    List (String × TTree) :=
  match lookupL obj2 "#list" with
  | some (TTree.l ws) => updL obj2 "#list" (TTree.l (ws ++ [String.mk p]))
  | _ => obj2

/-- Embedding of `_attach_data_to_path`: ensure `obj["#list"]` exists, walk
the space-separated words attaching `data` at the end, and — only when the
path has at least two words, on the first descent, and `list_` is true —
append the first word's entry to `obj["#list"]`. -/
def attach_data_to_path (obj : List (String × TTree)) (path_str : List Char)
    (data : List (String × TTree)) (list_ : Bool) : List (String × TTree) :=
  let obj1 := ensure_list obj
  match splitSp path_str with
  | [] => obj1
  | [p] => attachAt obj1 data [p]
  | p :: q :: rest =>
    let obj2 := attachAt obj1 data (p :: q :: rest)
    if list_ then append_list_word obj2 p else obj2

/-- Embedding of `parse_indented_config`: pop lines destructively, skip
comments, attach indented blocks (recursing with `nested=True`), push a
line back and stop on dedent (or on equal indentation inside a nested
call), and re-enter on equal indentation at top level.  The returned
remainder is the mutated `config` list; its length bound makes the loop's
well-foundedness explicit. -/
def parse_li (cfg : List (List Char)) (cur prev : Nat) (nested : Bool)
    (parsed : List (String × TTree)) :
    {r : (List (String × TTree)) × List (List Char) //
      r.2.length ≤ cfg.length} :=
  match cfg with
  | [] => ⟨(parsed, []), by simp⟩
  | line0 :: rest =>
    let line := rstripL line0
    let last := lstripL line
    if last.head? = some '!' then
      match parse_li rest cur prev nested parsed with
      | ⟨r, hr⟩ => ⟨r, by simp only [List.length_cons]; omega⟩
    else
      let leading := line.length - last.length
      if leading > cur then
        match parse_li rest leading cur true [] with
        | ⟨(current, rem), hrem⟩ =>
          match parse_li rem cur prev nested
              (attach_data_to_path parsed last current nested) with
          | ⟨r2, hr2⟩ =>
            ⟨r2, by
              simp only [List.length_cons] at hrem hr2 ⊢
              omega⟩
      else if leading < cur then
        ⟨(parsed, line :: rest), by simp⟩
      else
        if !nested then
          match parse_li rest leading cur true [] with
          | ⟨(current, rem), hrem⟩ =>
            match parse_li rem cur prev nested
                (attach_data_to_path parsed last current nested) with
            | ⟨r2, hr2⟩ =>
              ⟨r2, by
                simp only [List.length_cons] at hrem hr2 ⊢
                omega⟩
        else ⟨(parsed, line :: rest), by simp⟩
termination_by cfg.length
decreasing_by
  all_goals simp_wf
  all_goals (try dsimp only at *)
  all_goals omega

/-- Top-level entry of `parse_indented_config` (default arguments). -/
def parse_indented_config (cfg : List (List Char)) : List (String × TTree) :=
  (parse_li cfg 0 0 false []).1.1

/-- The `#list` words of a parsed map (empty when absent). -/
def hashList (m : List (String × TTree)) : List String :=
  match lookupL m "#list" with
  | some (TTree.l ws) => ws
  | _ => []

/-- C7: for every path string `p`, every non-empty include list `I` and
every exclude list `E`, `ModelFilter(I, E).check(p)` is `True` if and only
if some entry `i` of `I` satisfies (`i` starts with `p` or `p` starts with
`i`) and `p` is not exactly a member of `E`; in particular
`ModelFilter(include=["/a/b"], exclude=["/a/b/c"])` answers `False` for
`"/a/b/c"`, `True` for `"/a/b"` and `"/a/b/d"`, and `False` for `"/x"`. -/
theorem claim_C7_model_filter_check (p : String) (I E : List String)
    (hI : I ≠ []) :
    ((ModelFilter.make I E).check p = true ↔
      ((∃ i ∈ I, (pyStartsWith i p ∨ pyStartsWith p i)) ∧ p ∉ E)) ∧
    (ModelFilter.make ["/a/b"] ["/a/b/c"]).check "/a/b/c" = false ∧
    (ModelFilter.make ["/a/b"] ["/a/b/c"]).check "/a/b" = true ∧
    (ModelFilter.make ["/a/b"] ["/a/b/c"]).check "/a/b/d" = true ∧
    (ModelFilter.make ["/a/b"] ["/a/b/c"]).check "/x" = false := by
  refine ⟨?_, by decide, by decide, by decide, by decide⟩
  have hne : ¬ I.isEmpty := by
    cases I with
    | nil => exact absurd rfl hI
    | cons a l => simp [List.isEmpty]
  simp [ModelFilter.make, ModelFilter.check, hne,
    ModelFilter.check_inc]

/-- Witness for C7 at the concrete filter of the claim. -/
theorem claim_C7_witness :
    (["/a/b"] : List String) ≠ [] ∧
    (ModelFilter.make ["/a/b"] ["/a/b/c"]).check "/a/b" = true :=
  ⟨by decide, ((claim_C7_model_filter_check "/a/b" ["/a/b"] ["/a/b/c"]
      (by decide)).2.2.1)⟩

/-- C10: constructing `ModelFilter` with an empty (falsy) include list
replaces it by `[""]`, whose single entry is a prefix of every path, so
`check(p)` is `True` exactly when `p` is not in the exclude list: an
explicitly empty include list means include-everything. -/
theorem claim_C10_empty_include_means_everything (p : String) (E : List String) :
    (ModelFilter.make [] E).incl = [""] ∧
    ((ModelFilter.make [] E).check p = true ↔ p ∉ E) := by
  refine ⟨rfl, ?_⟩
  simp [ModelFilter.make, ModelFilter.check, ModelFilter.check_inc,
    pyStartsWith, List.isPrefixOf]

/-- The membership test of `add_command` finds exactly the literal direct
children equal to the line. -/
theorem cmdMem_iff (line : String) (cs : List CEntry) :
    cmdMem line cs = true ↔ CEntry.cmd line ∈ cs := by
  induction cs with
  | nil => simp [cmdMem]
  | cons c rest ih =>
    cases c with
    | cmd l =>
      by_cases h : l = line
      · subst h; simp [cmdMem]
      · simp [cmdMem, h, ih]
        intro hh
        exact absurd hh.symm h
    | sec h cs' => simp [cmdMem, ih]

/-- Folding string concatenation from an arbitrary accumulator. -/
theorem foldl_append_str (l : List String) (a : String) :
    List.foldl (fun r s => r ++ s) a l =
      a ++ List.foldl (fun r s => r ++ s) "" l := by
  induction l generalizing a with
  | nil => simp
  | cons x xs ih =>
    simp only [List.foldl_cons]
    rw [ih (a ++ x), ih ("" ++ x)]
    simp [String.append_assoc]

/-- The children concatenation of `to_string` is the join of the children's
own string forms, in order. -/
theorem children_string_eq_join (cs : List CEntry) :
    CEntry.children_string cs = String.join (cs.map CEntry.to_string) := by
  induction cs with
  | nil => simp [CEntry.children_string, String.join]
  | cons c rest ih =>
    rw [CEntry.children_string, ih]
    simp only [String.join, List.map_cons, List.foldl_cons]
    rw [foldl_append_str (List.map CEntry.to_string rest) ("" ++ c.to_string)]
    simp

/-- C8: `ConfigTree` preserves insertion order exactly: `add_command(line)`
appends `line` as a direct child unless an identical line is already a
direct child of the same node — the suppression looks only at one node's
direct children, never across nesting levels — and `to_string()` produces
the header line (if any) followed by each child's own string form
depth-first in insertion order, with no re-sorting. -/
theorem claim_C8_config_tree (cs : List CEntry) (line : String)
    (h : Option String) :
    (CEntry.cmd line ∈ cs → add_command cs line = cs) ∧
    (CEntry.cmd line ∉ cs → add_command cs line = cs ++ [CEntry.cmd line]) ∧
    (add_command [CEntry.sec (some "interface Gi1") [CEntry.cmd " shutdown"]]
        " shutdown" =
      [CEntry.sec (some "interface Gi1") [CEntry.cmd " shutdown"],
        CEntry.cmd " shutdown"]) ∧
    (CEntry.to_string (.sec h cs) =
      headerText h ++ String.join (cs.map CEntry.to_string)) ∧
    (CEntry.to_string
        (.sec none
          [CEntry.sec (some "interface Gi1")
            [CEntry.cmd " description one", CEntry.cmd " exit"],
           CEntry.sec (some "interface Gi2")
            [CEntry.cmd " description two", CEntry.cmd " exit"],
           CEntry.cmd "logging something something",
           CEntry.cmd "logging something else"]) =
      "interface Gi1\n description one\n exit\ninterface Gi2\n" ++
        " description two\n exit\nlogging something something\n" ++
        "logging something else\n") := by
  refine ⟨?_, ?_, ?_, ?_, ?_⟩
  · intro hm
    simp [add_command, (cmdMem_iff line cs).2 hm]
  · intro hm
    have : cmdMem line cs = false := by
      cases hcm : cmdMem line cs with
      | false => rfl
      | true => exact absurd ((cmdMem_iff line cs).1 hcm) hm
    simp [add_command, this]
  · simp [add_command, cmdMem]
  · simp [CEntry.to_string, children_string_eq_join]
  · simp [CEntry.to_string, CEntry.children_string, headerText, String.join]

/-- Witness for C8 at a concrete node and line. -/
theorem claim_C8_witness :
    add_command [CEntry.cmd "a"] "b" = [CEntry.cmd "a", CEntry.cmd "b"] :=
  (claim_C8_config_tree [CEntry.cmd "a"] "b" none).2.1 (by
    intro hm
    simp at hm)

/-- Navigation along a concatenated route factors through the first part. -/
theorem goto_append (p q : List Step) (v : YValue) :
    goto v (p ++ q) = (goto v p).bind (fun w => goto w q) := by
  induction p generalizing v with
  | nil => simp [goto]
  | cons st rest ih =>
    cases st with
    | member n =>
      cases v with
      | s x => simp [goto]
      | arr es => simp [goto]
      | obj fs =>
        simp only [List.cons_append, goto]
        cases lookupA fs n with
        | none => simp
        | some v' => simpa using ih v'
    | entryKeys k kv =>
      cases v with
      | s x => simp [goto]
      | obj fs => simp [goto]
      | arr es =>
        simp only [List.cons_append, goto]
        cases findEntry es k kv with
        | none => simp
        | some e => simpa using ih e

/-- C1: for every leaf or leaf-list route, when `replace` is true the
forward-progress check succeeds iff the route is present in `candidate`
(so for a leaf absent from candidate the per-leaf handler is never
invoked, whatever the running tree holds); when `replace` is false the
check succeeds iff the candidate value at the route differs from the
running value, or the route is present in `running` and absent from
`candidate`. -/
theorem claim_C1_forward_progress_leaf (ctx : Ctx) (p : List Step)
    (impl : TImpl) (path : List Step) (name : String) :
    (ctx.replaceFlag = true →
      (obj_forward_progress_leaf ctx p = true ↔
        (goto ctx.candidate p).isSome = true)) ∧
    (ctx.replaceFlag = true →
      goto ctx.candidate (path ++ [Step.member name]) = none →
      process_leaf ctx impl path name = []) ∧
    (ctx.replaceFlag = false →
      (obj_forward_progress_leaf ctx p = true ↔
        (ctx.running.bind (fun r => goto r p) ≠ goto ctx.candidate p ∨
          ((ctx.running.bind (fun r => goto r p)).isSome ∧
            goto ctx.candidate p = none)))) := by
  refine ⟨?_, ?_, ?_⟩
  · intro hr
    simp [obj_forward_progress_leaf, hr, present_in_candidate]
  · intro hr hnone
    simp [process_leaf, obj_forward_progress_leaf, hr, present_in_candidate,
      hnone]
  · intro hr
    obtain ⟨cand, run, rep⟩ := ctx
    simp only at hr
    subst hr
    cases run with
    | none =>
      cases hc : goto cand p <;>
        simp [obj_forward_progress_leaf, obj_changed, obj_remove_running, hc]
    | some r =>
      cases hg : goto r p <;> cases hc : goto cand p <;>
        simp [obj_forward_progress_leaf, obj_changed, obj_remove_running,
          hg, hc]

/-- Witness for C1: under replace, a leaf absent from candidate but present
in running leads to no handler call. -/
theorem claim_C1_witness :
    process_leaf ⟨YValue.obj [], some (YValue.obj [("x", YValue.s "1")]), true⟩
      (TImpl.mk [] ["x"]) [] "x" = [] :=
  (claim_C1_forward_progress_leaf
    ⟨YValue.obj [], some (YValue.obj [("x", YValue.s "1")]), true⟩
    [] (TImpl.mk [] ["x"]) [] "x").2.1 rfl rfl

/-- Membership characterization of the `_fill_to_remove` loop. -/
theorem fill_to_remove_loop_mem (ctx : Ctx) (path : List Step)
    (keyName : String) (cp : Bool) (runList : List YValue) (e : YValue) :
    e ∈ fill_to_remove_loop ctx path keyName cp runList ↔
      e ∈ runList ∧
        (cp = true →
          goto ctx.candidate (append_child_path path keyName e) = none) := by
  cases cp with
  | false =>
    induction runList with
    | nil => simp [fill_to_remove_loop]
    | cons x rest ih =>
      simp only [fill_to_remove_loop, Bool.false_eq_true, if_false,
        List.mem_cons, ih]
      tauto
  | true =>
    induction runList with
    | nil => simp [fill_to_remove_loop]
    | cons x rest ih =>
      simp only [fill_to_remove_loop, if_true]
      cases hg : goto ctx.candidate (append_child_path path keyName x) with
      | some v =>
        rw [ih]
        simp only [List.mem_cons, forall_const]
        constructor
        · rintro ⟨h1, h2⟩
          exact ⟨Or.inr h1, h2⟩
        · rintro ⟨h | h, h2⟩
          · subst h
            rw [h2] at hg
            cases hg
          · exact ⟨h, h2⟩
      | none =>
        simp only [List.mem_cons, ih, forall_const]
        constructor
        · rintro (h | ⟨h1, h2⟩)
          · subst h
            exact ⟨Or.inl rfl, hg⟩
          · exact ⟨Or.inr h1, h2⟩
        · rintro ⟨h | h, h2⟩
          · subst h
            exact Or.inl rfl
          · exact Or.inr ⟨h, h2⟩

/-- The `_fill_to_remove` loop keeps a subsequence of the running list. -/
theorem fill_to_remove_loop_sublist (ctx : Ctx) (path : List Step)
    (keyName : String) (cp : Bool) (runList : List YValue) :
    List.Sublist (fill_to_remove_loop ctx path keyName cp runList) runList := by
  cases cp with
  | false =>
    induction runList with
    | nil => simp [fill_to_remove_loop]
    | cons x rest ih =>
      simpa [fill_to_remove_loop] using List.Sublist.cons₂ x ih
  | true =>
    induction runList with
    | nil => simp [fill_to_remove_loop]
    | cons x rest ih =>
      simp only [fill_to_remove_loop, if_true]
      cases hg : goto ctx.candidate (append_child_path path keyName x) with
      | some v => exact List.Sublist.cons x ih
      | none => exact List.Sublist.cons₂ x ih

/-- C2: for every list node, `_fill_to_remove` sets `to_remove` to exactly
those elements of the running list whose key-derived route is not found in
`candidate`, preserving the running list's element order, and the result is
empty whenever `running` is absent; with running elements keyed 1, 2, 3 and
candidate elements keyed 2, 4 it contains exactly the elements keyed
1 and 3. -/
theorem claim_C2_fill_to_remove (ctx : Ctx) (path : List Step)
    (keyName : String) :
    (∀ e, e ∈ fill_to_remove ctx path keyName (goto ctx.candidate path)
        (running_list_at ctx path) ↔
      (ctx.running.isSome ∧ e ∈ running_list_at ctx path ∧
        goto ctx.candidate (append_child_path path keyName e) = none)) ∧
    List.Sublist
      (fill_to_remove ctx path keyName (goto ctx.candidate path)
        (running_list_at ctx path))
      (running_list_at ctx path) ∧
    (running_list_at ctx path = [] →
      fill_to_remove ctx path keyName (goto ctx.candidate path)
        (running_list_at ctx path) = []) ∧
    (fill_to_remove
        ⟨YValue.obj [("l", YValue.arr
            [YValue.obj [("k", YValue.s "2")], YValue.obj [("k", YValue.s "4")]])],
          some (YValue.obj [("l", YValue.arr
            [YValue.obj [("k", YValue.s "1")], YValue.obj [("k", YValue.s "2")],
              YValue.obj [("k", YValue.s "3")]])]),
          false⟩
        [Step.member "l"] "k"
        (goto (YValue.obj [("l", YValue.arr
            [YValue.obj [("k", YValue.s "2")], YValue.obj [("k", YValue.s "4")]])])
          [Step.member "l"])
        [YValue.obj [("k", YValue.s "1")], YValue.obj [("k", YValue.s "2")],
          YValue.obj [("k", YValue.s "3")]] =
      [YValue.obj [("k", YValue.s "1")], YValue.obj [("k", YValue.s "3")]]) := by
  refine ⟨?_, ?_, ?_, by rfl⟩
  · intro e
    unfold fill_to_remove
    cases hrun : ctx.running with
    | none => simp [hrun]
    | some r =>
      rw [fill_to_remove_loop_mem]
      simp only [hrun, Option.isSome_some, true_and]
      constructor
      · rintro ⟨h1, h2⟩
        refine ⟨h1, ?_⟩
        by_cases hc : (goto ctx.candidate path).isSome
        · have := h2 (by simpa using hc)
          exact this
        · rw [Option.not_isSome_iff_eq_none] at hc
          rw [append_child_path, goto_append, hc]
          rfl
      · rintro ⟨h1, h2⟩
        exact ⟨h1, fun _ => h2⟩
  · unfold fill_to_remove
    cases hrun : ctx.running with
    | none => simp
    | some r => exact fill_to_remove_loop_sublist _ _ _ _ _
  · intro h
    unfold fill_to_remove
    cases hrun : ctx.running with
    | none => rfl
    | some r =>
      rw [h]
      rfl

/-- Witness for C2: the empty-running conjunct at a concrete context. -/
theorem claim_C2_witness :
    running_list_at ⟨YValue.obj [], none, false⟩ [] = [] ∧
    fill_to_remove ⟨YValue.obj [], none, false⟩ [] "k"
      (goto (YValue.obj []) []) (running_list_at ⟨YValue.obj [], none, false⟩ [])
      = [] :=
  ⟨rfl, (claim_C2_fill_to_remove ⟨YValue.obj [], none, false⟩ [] "k").2.2.1 rfl⟩

/-- Membership characterization of the list comprehension. -/
theorem list_diff_mem (l other : List YValue) (x : YValue) :
    x ∈ list_diff l other ↔ x ∈ l ∧ x ∉ other := by
  induction l with
  | nil => simp [list_diff]
  | cons i rest ih =>
    by_cases hi : i ∈ other
    · simp only [list_diff, if_pos hi, ih, List.mem_cons]
      constructor
      · rintro ⟨h1, h2⟩
        exact ⟨Or.inr h1, h2⟩
      · rintro ⟨h | h, h2⟩
        · subst h
          exact absurd hi h2
        · exact ⟨h, h2⟩
    · simp only [list_diff, if_neg hi, List.mem_cons, ih]
      constructor
      · rintro (h | ⟨h1, h2⟩)
        · subst h
          exact ⟨Or.inl rfl, hi⟩
        · exact ⟨Or.inr h1, h2⟩
      · rintro ⟨h | h, h2⟩
        · exact Or.inl h
        · exact Or.inr ⟨h, h2⟩

/-- The list comprehension keeps a subsequence of its source list. -/
theorem list_diff_sublist (l other : List YValue) :
    List.Sublist (list_diff l other) l := by
  induction l with
  | nil => simp [list_diff]
  | cons i rest ih =>
    by_cases hi : i ∈ other
    · simp only [list_diff, if_pos hi]
      exact List.Sublist.cons i ih
    · simp only [list_diff, if_neg hi]
      exact List.Sublist.cons₂ i ih

/-- C3: `_fill_to_remove_values` sets `values_to_remove` to exactly the
elements of running's raw sequence that do not occur in candidate's raw
sequence, in running's original order (an ordered difference of the two
sequences, not a symmetric difference and not sorted); it is empty when the
running leaf-list is absent, in particular when the whole running tree is
absent; running `["a","b","c"]` against candidate `["b","c"]` yields
exactly `["a"]`. -/
theorem claim_C3_fill_to_remove_values (cand run : Option YValue) :
    (∀ x, x ∈ fill_to_remove_values cand run ↔
      (x ∈ raw_list run ∧ x ∉ raw_list cand)) ∧
    List.Sublist (fill_to_remove_values cand run) (raw_list run) ∧
    (run = none → fill_to_remove_values cand run = []) ∧
    (∀ ctx : Ctx, ∀ lp : List Step, ctx.running = none →
      running_ll_at ctx lp = none) ∧
    (∀ ctx : Ctx, ∀ r : YValue, ∀ lp : List Step,
      ctx.running = some r → goto r lp = none → running_ll_at ctx lp = none) ∧
    (fill_to_remove_values (some (YValue.arr [YValue.s "b", YValue.s "c"]))
        (some (YValue.arr [YValue.s "a", YValue.s "b", YValue.s "c"])) =
      [YValue.s "a"]) := by
  refine ⟨?_, ?_, ?_, ?_, ?_, by rfl⟩
  · intro x
    exact list_diff_mem _ _ _
  · exact list_diff_sublist _ _
  · intro h
    subst h
    rfl
  · intro ctx lp h
    simp [running_ll_at, h]
  · intro ctx r lp h1 h2
    simp [running_ll_at, h1, h2]

/-- Witness for C3: the absence conjuncts at concrete inputs. -/
theorem claim_C3_witness :
    fill_to_remove_values (some (YValue.arr [YValue.s "b"])) none = [] :=
  (claim_C3_fill_to_remove_values (some (YValue.arr [YValue.s "b"])) none).2.2.1
    rfl

/-! ## Idempotence of merge (running equal to candidate) -/

/-- When running and candidate are the same tree, no route's value differs. -/
theorem obj_changed_self (c : YValue) (rep : Bool) (p : List Step) :
    obj_changed ⟨c, some c, rep⟩ p = false := by
  simp [obj_changed]

/-- When running and candidate are the same tree, nothing was removed. -/
theorem obj_remove_running_self (c : YValue) (rep : Bool) (p : List Step) :
    obj_remove_running ⟨c, some c, rep⟩ p = false := by
  simp only [obj_remove_running]
  cases h : goto c p <;> simp [h]

/-- When merging a tree into itself, the leaf forward-progress check fails
at every route. -/
theorem fp_leaf_self (c : YValue) (p : List Step) :
    obj_forward_progress_leaf ⟨c, some c, false⟩ p = false := by
  simp [obj_forward_progress_leaf, obj_changed_self, obj_remove_running_self]

/-- When merging a tree into itself, no leaf handler is called. -/
theorem process_leaf_self (c : YValue) (impl : TImpl) (path : List Step)
    (name : String) :
    process_leaf ⟨c, some c, false⟩ impl path name = [] := by
  simp [process_leaf, fp_leaf_self]

/-- When merging a tree into itself, no leaf-list handler is called. -/
theorem process_leaf_list_self (c : YValue) (impl : TImpl) (path : List Step)
    (name : String) :
    process_leaf_list ⟨c, some c, false⟩ impl path name = [] := by
  simp [process_leaf_list, fp_leaf_self]

/-- When merging a tree into itself, the element loop of `_process_list`
skips every element (each is unchanged and we are not replacing). -/
theorem t_list_elems_self (c : YValue) (path : List Step) (kn dp : String)
    (snap : List (String × YValue))
    (recurse : YValue → List (String × YValue) → List TEvent)
    (es : List YValue) (cur : List (String × YValue)) :
    t_list_elems ⟨c, some c, false⟩ path kn dp snap recurse es cur =
      ([], cur) := by
  induction es generalizing cur with
  | nil => simp [t_list_elems]
  | cons e rest ih =>
    simp only [t_list_elems, obj_changed_self, Bool.not_false, Bool.and_self,
      if_true]
    exact ih cur

/-- When merging a tree into itself, `_process_list` emits nothing. -/
theorem t_process_list_self (c : YValue) (impl : TImpl) (path : List Step)
    (keys : List (String × YValue)) (node : SNode) :
    (t_process_list ⟨c, some c, false⟩ impl path keys node).1 = [] := by
  simp only [t_process_list]
  rw [t_list_elems_self]

mutual

/-- When merging a tree into itself, `_process_container` emits nothing. -/
theorem t_process_container_self (c : YValue) (impl : TImpl)
    (path : List Step) (keys : List (String × YValue)) (node : SNode) :
    t_process_container ⟨c, some c, false⟩ impl path keys node = [] := by
  rw [t_process_container.eq_def]
  cases node with
  | container a b d cs => exact t_children_self c impl path keys cs
  | group a b d cs => exact t_children_self c impl path keys cs
  | slist a b d ks cs => exact t_children_self c impl path keys cs
  | leaf a b d cfg => rfl
  | leafList a b d cfg => rfl
termination_by 4 * sizeOf node
decreasing_by all_goals (simp_wf <;> omega)

/-- When merging a tree into itself, the children loop emits nothing. -/
theorem t_children_self (c : YValue) (impl : TImpl) (path : List Step)
    (keys : List (String × YValue)) (cs : List SNode) :
    t_children ⟨c, some c, false⟩ impl path keys cs = [] := by
  rw [t_children.eq_def]
  cases cs with
  | nil => rfl
  | cons x rest =>
    cases x with
    | container a b d cs2 =>
      show t_container_node ⟨c, some c, false⟩ impl path keys
          (SNode.container a b d cs2) ++
        t_children ⟨c, some c, false⟩ impl path keys rest = []
      rw [t_container_node_self c impl path keys (SNode.container a b d cs2),
        t_children_self c impl path keys rest]
      rfl
    | group a b d gcs =>
      show t_group_children ⟨c, some c, false⟩ impl path keys gcs ++
        t_children ⟨c, some c, false⟩ impl path keys rest = []
      rw [t_group_children_self c impl path keys gcs,
        t_children_self c impl path keys rest]
      rfl
    | slist a b d ks cs2 =>
      show t_container_node ⟨c, some c, false⟩ impl path keys
          (SNode.slist a b d ks cs2) ++
        t_children ⟨c, some c, false⟩ impl path keys rest = []
      rw [t_container_node_self c impl path keys (SNode.slist a b d ks cs2),
        t_children_self c impl path keys rest]
      rfl
    | leaf a n d cfg =>
      show process_leaf ⟨c, some c, false⟩ impl path n ++
        t_children ⟨c, some c, false⟩ impl path keys rest = []
      rw [process_leaf_self c impl path n, t_children_self c impl path keys rest]
      rfl
    | leafList a n d cfg =>
      show process_leaf_list ⟨c, some c, false⟩ impl path n ++
        t_children ⟨c, some c, false⟩ impl path keys rest = []
      rw [process_leaf_list_self c impl path n,
        t_children_self c impl path keys rest]
      rfl
termination_by 4 * sizeOf cs + 1
decreasing_by all_goals (simp_wf <;> omega)

/-- When merging a tree into itself, the group splice loop emits nothing. -/
theorem t_group_children_self (c : YValue) (impl : TImpl) (path : List Step)
    (keys : List (String × YValue)) (cs : List SNode) :
    t_group_children ⟨c, some c, false⟩ impl path keys cs = [] := by
  rw [t_group_children.eq_def]
  cases cs with
  | nil => rfl
  | cons x rest =>
    show t_container_node ⟨c, some c, false⟩ impl path keys x ++
      t_group_children ⟨c, some c, false⟩ impl path keys rest = []
    rw [t_container_node_self c impl path keys x,
      t_group_children_self c impl path keys rest]
    rfl
termination_by 4 * sizeOf cs + 2
decreasing_by all_goals (simp_wf <;> omega)

/-- When merging a tree into itself, `_process_container_node` emits
nothing. -/
theorem t_container_node_self (c : YValue) (impl : TImpl) (path : List Step)
    (keys : List (String × YValue)) (x : SNode) :
    t_container_node ⟨c, some c, false⟩ impl path keys x = [] := by
  cases x <;>
    (rw [t_container_node.eq_def]
     split <;> dsimp only <;> (try split) <;> (try split)
     all_goals
       first
         | rfl
         | exact t_process_container_self c _ _ keys _
         | exact t_process_list_self c _ _ keys _)
termination_by 4 * sizeOf x + 3
decreasing_by all_goals (simp_wf <;> omega)

end

/-- C4: translating with `replace` false and `running` equal to `candidate`
emits nothing: every leaf and leaf-list forward-progress check fails, no
leaf or leaf-list handler is invoked, and every list element is skipped as
unchanged, so no list element is recursed into — the whole traversal
produces no engine event. -/
theorem claim_C4_merge_idempotence (c : YValue) (impl : TImpl)
    (path p : List Step) (keys : List (String × YValue)) (node : SNode)
    (name : String) :
    obj_forward_progress_leaf ⟨c, some c, false⟩ p = false ∧
    process_leaf ⟨c, some c, false⟩ impl path name = [] ∧
    process_leaf_list ⟨c, some c, false⟩ impl path name = [] ∧
    t_process_container ⟨c, some c, false⟩ impl path keys node = [] ∧
    (t_process_list ⟨c, some c, false⟩ impl path keys node).1 = [] :=
  ⟨fp_leaf_self c p, process_leaf_self c impl path name,
    process_leaf_list_self c impl path name,
    t_process_container_self c impl path keys node,
    t_process_list_self c impl path keys node⟩

/-- The events of the `_process_list` element loop: one recursion per
non-skipped candidate element, whose `keys` dict is the pre-loop snapshot
extended with exactly that element's key — independent of the translator's
evolving `keys` attribute `cur`. -/
theorem t_list_elems_events (ctx : Ctx) (path : List Step) (kn dp : String)
    (snap : List (String × YValue))
    (recurse : YValue → List (String × YValue) → List TEvent)
    (es : List YValue) (cur : List (String × YValue)) :
    (t_list_elems ctx path kn dp snap recurse es cur).1 =
      (es.filter (fun e =>
        !(!(obj_changed ctx (append_child_path path kn e)) &&
          !ctx.replaceFlag))).bind
        (fun e =>
          TEvent.elemRecurse (append_child_path path kn e)
              (updA snap dp (extract_key kn e)) ::
            recurse e (updA snap dp (extract_key kn e))) := by
  induction es generalizing cur with
  | nil => simp [t_list_elems]
  | cons e rest ih =>
    by_cases hskip :
        (!(obj_changed ctx (append_child_path path kn e)) &&
          !ctx.replaceFlag) = true
    · simp only [t_list_elems, hskip, if_true, List.filter_cons,
        Bool.not_eq_true']
      rw [ih cur]
      simp [hskip]
    · have hb : (!(obj_changed ctx (append_child_path path kn e)) &&
          !ctx.replaceFlag) = false := by
        cases hx : (!(obj_changed ctx (append_child_path path kn e)) &&
            !ctx.replaceFlag) with
        | true => exact absurd hx hskip
        | false => rfl
      simp only [t_list_elems, hb, Bool.false_eq_true, if_false,
        List.filter_cons, Bool.not_false]
      rw [ih]
      simp

/-- Both halves of `_process_list`'s behaviour on the `keys` context:
the caller's `keys` is restored after the loop, and the events are one
recursion per non-skipped candidate element with `keys` equal to the
entry snapshot plus that element's key. -/
theorem t_process_list_spec (ctx : Ctx) (impl : TImpl) (path : List Step)
    (keys : List (String × YValue)) (node : SNode) :
    (t_process_list ctx impl path keys node).2 = keys ∧
    (t_process_list ctx impl path keys node).1 =
      ((candidate_elems ctx path).filter (fun e =>
        !(!(obj_changed ctx (append_child_path path node.firstKey e)) &&
          !ctx.replaceFlag))).bind
        (fun e =>
          TEvent.elemRecurse (append_child_path path node.firstKey e)
              (updA keys node.dpathOf (extract_key node.firstKey e)) ::
            t_process_container ctx impl
              (append_child_path path node.firstKey e)
              (updA keys node.dpathOf (extract_key node.firstKey e)) node) := by
  rw [t_process_list.eq_def]
  refine ⟨rfl, ?_⟩
  rw [t_list_elems_events]
  rfl

/-- The parser's element loop is one result per extracted pair, computed
from the pre-loop snapshot plus that element's key only. -/
theorem p_list_elems_map {N : Type} (dpath : String)
    (old_keys : List (String × String))
    (recurse : N → List (String × String) → List (String × PRes))
    (elems : List (String × N)) :
    p_list_elems dpath old_keys recurse elems =
      elems.map (fun p => PRes.obj (recurse p.2 (updL old_keys dpath p.1))) := by
  induction elems with
  | nil => rfl
  | cons p rest ih =>
    cases p
    simp [p_list_elems, ih]

/-- C5: the `keys` mapping reflects only list ancestors on the current
recursion path.  In `Parser._process_list` the result is one recursion per
extracted element, each run on the pre-list snapshot of `keys` extended
with exactly that element's key (so nothing set by a sibling is ever
observable), and afterwards `keys` and the native scope are restored to
their pre-list values for the caller.  In `Translator._process_list` each
non-skipped candidate element's recursion receives the pre-list snapshot of
`keys` extended with exactly that element's key, and `keys` is restored to
the snapshot for the caller. -/
theorem claim_C5_keys_snapshot_invariant {N : Type} (mf : ModelFilter)
    (pimpl : PImpl N) (native : N) (pkeys : List (String × String))
    (config state : Bool) (node : SNode) (ctx : Ctx) (timpl : TImpl)
    (path : List Step) (tkeys : List (String × YValue)) :
    ((p_process_list mf pimpl native pkeys config state node).2.1 = pkeys ∧
     (p_process_list mf pimpl native pkeys config state node).2.2 = native ∧
     (p_process_list mf pimpl native pkeys config state node).1 =
       (pimpl.ext native pkeys).map (fun p =>
         PRes.obj (p_process_container mf pimpl p.2
           (updL pkeys node.dpathOf p.1) config state node.keyNamesOf
           node))) ∧
    ((t_process_list ctx timpl path tkeys node).2 = tkeys ∧
     (t_process_list ctx timpl path tkeys node).1 =
       ((candidate_elems ctx path).filter (fun e =>
         !(!(obj_changed ctx (append_child_path path node.firstKey e)) &&
           !ctx.replaceFlag))).bind
         (fun e =>
           TEvent.elemRecurse (append_child_path path node.firstKey e)
               (updA tkeys node.dpathOf (extract_key node.firstKey e)) ::
             t_process_container ctx timpl
               (append_child_path path node.firstKey e)
               (updA tkeys node.dpathOf (extract_key node.firstKey e))
               node)) := by
  refine ⟨⟨?_, ?_, ?_⟩, t_process_list_spec ctx timpl path tkeys node⟩
  · rw [p_process_list.eq_def]
  · rw [p_process_list.eq_def]
  · rw [p_process_list.eq_def]
    exact p_list_elems_map _ _ _ _

/-- C6 counterexample: the claim states that a Leaf/LeafList child "is
skipped when its config/state classification doesn't match the requested
config/state flags", with the inherited-key-name exception attached only to
the ModelFilter check.  In the source both checks sit under
`if child.name not in keys:`, so a key leaf also bypasses the config/state
check: here a config-classified key leaf `k` — and likewise a
config-classified key leaf-list `k` — is parsed with
`config=False, state=True` (a mismatch), yet its accessor is called and its
value attached — the claim's skip rule does not hold as stated. -/
theorem claim_C6_counterexample :
    p_process_container (ModelFilter.make ["/"] [])
      (PImpl.mk (N := Unit) []
        [("k", fun _ _ => some (YValue.s "v"))] (fun _ _ => []))
      () [] false true ["k"]
      (SNode.container "ns" "c" "/c" [SNode.leaf "ns" "k" "/c/k" true]) =
      [("k", PRes.val (YValue.s "v"))] ∧
    p_process_container (ModelFilter.make ["/"] [])
      (PImpl.mk (N := Unit) []
        [("k", fun _ _ => some (YValue.s "v"))] (fun _ _ => []))
      () [] false true ["k"]
      (SNode.container "ns" "c" "/c" [SNode.leafList "ns" "k" "/c/k" true]) =
      [("k", PRes.val (YValue.s "v"))] := by
  constructor
  · rw [p_process_container.eq_def]
    show p_children (ModelFilter.make ["/"] []) _ () [] false true ["k"] "ns"
        [] [SNode.leaf "ns" "k" "/c/k" true] = _
    rw [p_children.eq_def]
    show p_children (ModelFilter.make ["/"] []) _ () [] false true ["k"] "ns"
        (match p_leaf_child (ModelFilter.make ["/"] [])
            [("k", fun _ _ => some (YValue.s "v"))] () [] false true ["k"]
            "ns" (SNode.leaf "ns" "k" "/c/k" true) with
          | some (k, v) => updL [] k (PRes.val v)
          | none => []) [] = _
    have h2 : p_leaf_child (ModelFilter.make ["/"] [])
        [("k", fun (_ : Unit) _ => some (YValue.s "v"))] () [] false true
        ["k"] "ns" (SNode.leaf "ns" "k" "/c/k" true) =
        some ("k", YValue.s "v") := by rfl
    rw [h2]
    rw [p_children.eq_def]
    rfl
  · rw [p_process_container.eq_def]
    show p_children (ModelFilter.make ["/"] []) _ () [] false true ["k"] "ns"
        [] [SNode.leafList "ns" "k" "/c/k" true] = _
    rw [p_children.eq_def]
    show p_children (ModelFilter.make ["/"] []) _ () [] false true ["k"] "ns"
        (match p_leaf_child (ModelFilter.make ["/"] [])
            [("k", fun _ _ => some (YValue.s "v"))] () [] false true ["k"]
            "ns" (SNode.leafList "ns" "k" "/c/k" true) with
          | some (k, v) => updL [] k (PRes.val v)
          | none => []) [] = _
    have h2 : p_leaf_child (ModelFilter.make ["/"] [])
        [("k", fun (_ : Unit) _ => some (YValue.s "v"))] () [] false true
        ["k"] "ns" (SNode.leafList "ns" "k" "/c/k" true) =
        some ("k", YValue.s "v") := by rfl
    rw [h2]
    rw [p_children.eq_def]
    rfl

/-- C6 (amended): in `Parser._process_container`, a Leaf or LeafList child
whose name is not among the inherited key names of the enclosing list is
skipped when the `ModelFilter` excludes its path, and skipped when its
config/state classification doesn't match the requested flags; a child
whose name is an inherited key name bypasses both checks (key leaves are
always processed).  A processed child's accessor is called and a non-null
result is attached under the qualified name; a null result is omitted.
The first three conjuncts settle Leaf children, the last three LeafList
children. -/
theorem claim_C6_amended_leaf_dispatch {N : Type} (mf : ModelFilter)
    (accs : List (String × (N → List (String × String) → Option YValue)))
    (native : N) (keys : List (String × String)) (config state : Bool)
    (inh : List String) (parentNs ns name dpath : String) (cfg : Bool)
    (f : N → List (String × String) → Option YValue)
    (hacc : lookupL accs name = some f) :
    (name ∉ inh → mf.check dpath = false →
      p_leaf_child mf accs native keys config state inh parentNs
        (SNode.leaf ns name dpath cfg) = none) ∧
    (name ∉ inh → ((cfg && !config) || (!cfg && !state)) = true →
      p_leaf_child mf accs native keys config state inh parentNs
        (SNode.leaf ns name dpath cfg) = none) ∧
    ((name ∈ inh ∨
        (mf.check dpath = true ∧
          ((cfg && !config) || (!cfg && !state)) = false)) →
      p_leaf_child mf accs native keys config state inh parentNs
          (SNode.leaf ns name dpath cfg) =
        match f native keys with
        | some v =>
          some (get_key_name parentNs (SNode.leaf ns name dpath cfg), v)
        | none => none) ∧
    (name ∉ inh → mf.check dpath = false →
      p_leaf_child mf accs native keys config state inh parentNs
        (SNode.leafList ns name dpath cfg) = none) ∧
    (name ∉ inh → ((cfg && !config) || (!cfg && !state)) = true →
      p_leaf_child mf accs native keys config state inh parentNs
        (SNode.leafList ns name dpath cfg) = none) ∧
    ((name ∈ inh ∨
        (mf.check dpath = true ∧
          ((cfg && !config) || (!cfg && !state)) = false)) →
      p_leaf_child mf accs native keys config state inh parentNs
          (SNode.leafList ns name dpath cfg) =
        match f native keys with
        | some v =>
          some (get_key_name parentNs (SNode.leafList ns name dpath cfg), v)
        | none => none) := by
  refine ⟨?_, ?_, ?_, ?_, ?_, ?_⟩
  · intro hni hmf
    simp [p_leaf_child, SNode.nameOf, SNode.dpathOf, hni, hmf]
  · intro hni hmis
    by_cases hmf : mf.check dpath = true
    · simp [p_leaf_child, SNode.nameOf, SNode.dpathOf, SNode.cfgOf, hni, hmf,
        hmis]
    · simp only [Bool.not_eq_true] at hmf
      simp [p_leaf_child, SNode.nameOf, SNode.dpathOf, hni, hmf]
  · intro hp
    rcases hp with hin | ⟨hmf, hmis⟩
    · simp [p_leaf_child, SNode.nameOf, hin, hacc]
    · by_cases hin : name ∈ inh
      · simp [p_leaf_child, SNode.nameOf, hin, hacc]
      · simp [p_leaf_child, SNode.nameOf, SNode.dpathOf, SNode.cfgOf, hin,
          hmf, hmis, hacc]
  · intro hni hmf
    simp [p_leaf_child, SNode.nameOf, SNode.dpathOf, hni, hmf]
  · intro hni hmis
    by_cases hmf : mf.check dpath = true
    · simp [p_leaf_child, SNode.nameOf, SNode.dpathOf, SNode.cfgOf, hni, hmf,
        hmis]
    · simp only [Bool.not_eq_true] at hmf
      simp [p_leaf_child, SNode.nameOf, SNode.dpathOf, hni, hmf]
  · intro hp
    rcases hp with hin | ⟨hmf, hmis⟩
    · simp [p_leaf_child, SNode.nameOf, hin, hacc]
    · by_cases hin : name ∈ inh
      · simp [p_leaf_child, SNode.nameOf, hin, hacc]
      · simp [p_leaf_child, SNode.nameOf, SNode.dpathOf, SNode.cfgOf, hin,
          hmf, hmis, hacc]

/-- Witness for the amended C6 at concrete inputs: a key leaf and a key
leaf-list with mismatching config/state flags are still processed and
attached. -/
theorem claim_C6_witness :
    lookupL [("k", cexAcc)] "k" = some cexAcc ∧
    p_leaf_child (ModelFilter.make ["/"] []) [("k", cexAcc)] () [] false true
        ["k"] "ns" (SNode.leaf "ns" "k" "/c/k" true) =
      some ("k", YValue.s "v") ∧
    p_leaf_child (ModelFilter.make ["/"] []) [("k", cexAcc)] () [] false true
        ["k"] "ns" (SNode.leafList "ns" "k" "/c/k" true) =
      some ("k", YValue.s "v") := by
  refine ⟨rfl, ?_, ?_⟩
  · have h := (claim_C6_amended_leaf_dispatch (ModelFilter.make ["/"] [])
      [("k", cexAcc)] () [] false true ["k"] "ns" "ns" "k" "/c/k" true
      cexAcc rfl).2.2.1 (Or.inl (by simp))
    rw [h]
    rfl
  · have h := (claim_C6_amended_leaf_dispatch (ModelFilter.make ["/"] [])
      [("k", cexAcc)] () [] false true ["k"] "ns" "ns" "k" "/c/k" true
      cexAcc rfl).2.2.2.2.2 (Or.inl (by simp))
    rw [h]
    rfl

/-- Lookup after a dict assignment. -/
theorem lookupL_updL {α : Type _} (m : List (String × α)) (k : String)
    (v : α) (n : String) :
    lookupL (updL m k v) n = if n = k then some v else lookupL m n := by
  induction m with
  | nil =>
    simp only [updL, lookupL]
    by_cases h : n = k
    · simp [h]
    · simp [h, Ne.symm h]
  | cons kv rest ih =>
    obtain ⟨k', v'⟩ := kv
    simp only [updL]
    by_cases h1 : k' = k
    · subst h1
      simp only [if_pos rfl, lookupL]
      by_cases h2 : n = k'
      · simp [h2]
      · simp [h2, Ne.symm h2]
    · simp only [if_neg h1, lookupL]
      by_cases h2 : k' = n
      · subst h2
        simp [lookupL, h1, Ne.symm h1]
      · simp [h2, ih]

/-- Attaching at a multi-word path leaves every key other than `#text` and
the first word unchanged. -/
theorem lookupL_attachAt_multi_ne (o1 data : List (String × TTree))
    (p q : List Char) (rest : List (List Char)) (n : String)
    (h1 : n ≠ "#text") (h2 : n ≠ String.mk p) :
    lookupL (attachAt o1 data (p :: q :: rest)) n = lookupL o1 n := by
  simp only [attachAt]
  simp [lookupL_updL, h1, h2]

/-- Attaching at a single-word path leaves every key other than `#text` and
the word unchanged. -/
theorem lookupL_attachAt_single_ne (o1 data : List (String × TTree))
    (p : List Char) (n : String) (h1 : n ≠ "#text") (h2 : n ≠ String.mk p) :
    lookupL (attachAt o1 data [p]) n = lookupL o1 n := by
  simp only [attachAt]
  simp [lookupL_updL, h1, h2]

/-- After attaching at a multi-word path, the first word maps to the
descended sub-map. -/
theorem lookupL_attachAt_multi_at (o1 data : List (String × TTree))
    (p q : List Char) (rest : List (List Char)) :
    ∃ sub, lookupL (attachAt o1 data (p :: q :: rest)) (String.mk p) =
      some (TTree.m sub) := by
  simp only [attachAt]
  rw [lookupL_updL]
  simp

/-- The ensured map's `#list` entry. -/
theorem lookupL_ensure_list (obj : List (String × TTree)) :
    (lookupL obj "#list" = none →
      lookupL (ensure_list obj) "#list" = some (TTree.l [])) ∧
    (∀ x, lookupL obj "#list" = some x →
      lookupL (ensure_list obj) "#list" = some x) := by
  constructor
  · intro h
    simp [ensure_list, h, lookupL_updL]
  · intro x h
    simp [ensure_list, h]

/-- C9 counterexample: the claim states that every line opening an indented
block inside a nested call gets a `(first-word, sub-map)` entry appended to
the parent's `#list`.  In `_attach_data_to_path` the append sits inside the
word-descent loop after the first `path.pop(0)`, so a single-word line
never reaches it: attaching the block of the single-word line `standby`
(itself containing the nested block of `timers 1 2`) with `list_=True`
leaves the parent's `#list` empty, although the block is attached; a
multi-word line (`timers 1 2`) does append its first word. -/
theorem claim_C9_counterexample :
    hashList (attach_data_to_path []
      (String.data "standby")
      (attach_data_to_path [] (String.data "timers 1 2") [] true)
      true) = [] ∧
    (lookupL (attach_data_to_path [] (String.data "standby")
      (attach_data_to_path [] (String.data "timers 1 2") [] true)
      true) "standby").isSome = true ∧
    hashList (attach_data_to_path [] (String.data "timers 1 2") [] true) =
      ["timers"] :=
  ⟨rfl, rfl, rfl⟩

/-- C9 (amended): in `_attach_data_to_path` with `list_` true (the `nested`
flag of the enclosing `parse_indented_config` call), attaching a block for
a line of at least two words appends the line's first word's entry to the
`#list` array of the immediate parent map, in order (the sub-map is the
parent's entry at that word, which exists after the attach); a single-word
line attaches its block without appending any `#list` entry, and with
`list_` false nothing is appended. -/
theorem claim_C9_amended_attach_list (obj data : List (String × TTree))
    (ps : List Char) :
    (∀ p q rest, splitSp ps = p :: q :: rest → String.mk p ≠ "#list" →
      ((lookupL obj "#list" = none →
        hashList (attach_data_to_path obj ps data true) = [String.mk p]) ∧
       (∀ ws, lookupL obj "#list" = some (TTree.l ws) →
        hashList (attach_data_to_path obj ps data true) =
          ws ++ [String.mk p]) ∧
       (∃ sub, lookupL (attach_data_to_path obj ps data true) (String.mk p) =
          some (TTree.m sub)))) ∧
    (∀ p, splitSp ps = [p] → String.mk p ≠ "#list" →
      hashList (attach_data_to_path obj ps data true) = hashList obj) ∧
    (∀ p q rest, splitSp ps = p :: q :: rest → String.mk p ≠ "#list" →
      hashList (attach_data_to_path obj ps data false) = hashList obj) := by
  have htl : ("#list" : String) ≠ "#text" := by decide
  refine ⟨?_, ?_, ?_⟩
  · intro p q rest hsplit hp
    have hne : ∀ o1 : List (String × TTree),
        lookupL (attachAt o1 data (p :: q :: rest)) "#list" =
          lookupL o1 "#list" :=
      fun o1 => lookupL_attachAt_multi_ne o1 data p q rest "#list" htl
        (Ne.symm hp)
    refine ⟨?_, ?_, ?_⟩
    · intro hnone
      have e1 := (lookupL_ensure_list obj).1 hnone
      have e2 : lookupL (attachAt (ensure_list obj) data (p :: q :: rest))
          "#list" = some (TTree.l []) := by rw [hne]; exact e1
      simp [attach_data_to_path, hsplit, append_list_word, e2, hashList,
        lookupL_updL]
    · intro ws hws
      have e1 := (lookupL_ensure_list obj).2 (TTree.l ws) hws
      have e2 : lookupL (attachAt (ensure_list obj) data (p :: q :: rest))
          "#list" = some (TTree.l ws) := by rw [hne]; exact e1
      simp [attach_data_to_path, hsplit, append_list_word, e2, hashList,
        lookupL_updL]
    · obtain ⟨sub, hsub⟩ :=
        lookupL_attachAt_multi_at (ensure_list obj) data p q rest
      refine ⟨sub, ?_⟩
      simp only [attach_data_to_path, hsplit, append_list_word]
      cases hlk : lookupL (attachAt (ensure_list obj) data (p :: q :: rest))
          "#list" with
      | none => simpa using hsub
      | some t =>
        cases t with
        | l ws =>
          simp only [if_true, lookupL_updL]
          simp [hp, hsub]
        | s v => simpa using hsub
        | b v => simpa using hsub
        | m e => simpa using hsub
  · intro p hsplit hp
    have hne := lookupL_attachAt_single_ne (ensure_list obj) data p "#list"
      htl (Ne.symm hp)
    simp only [attach_data_to_path, hsplit, hashList]
    rw [hne]
    simp only [ensure_list]
    cases hx : lookupL obj "#list" with
    | none => simp [hx, lookupL_updL]
    | some t => simp [hx]
  · intro p q rest hsplit hp
    have hne := lookupL_attachAt_multi_ne (ensure_list obj) data p q rest
      "#list" htl (Ne.symm hp)
    simp only [attach_data_to_path, hsplit, hashList, Bool.false_eq_true,
      if_false]
    rw [hne]
    simp only [ensure_list]
    cases hx : lookupL obj "#list" with
    | none => simp [hx, lookupL_updL]
    | some t => simp [hx]

/-- Witness for the amended C9 at a concrete two-word line. -/
theorem claim_C9_witness :
    splitSp (String.data "a b") = [['a'], ['b']] ∧
    hashList (attach_data_to_path [] (String.data "a b") [] true) = ["a"] := by
  refine ⟨rfl, ?_⟩
  exact ((claim_C9_amended_attach_list [] [] (String.data "a b")).1
    ['a'] ['b'] [] rfl (by decide)).1 rfl

/-- Witness for C4 at a concrete tree and schema. -/
theorem claim_C4_witness :
    t_process_container
      ⟨YValue.obj [("x", YValue.s "1")], some (YValue.obj [("x", YValue.s "1")]),
        false⟩
      (TImpl.mk [] ["x"]) [] []
      (SNode.container "ns" "c" "/c" [SNode.leaf "ns" "x" "/c/x" true]) = [] :=
  (claim_C4_merge_idempotence (YValue.obj [("x", YValue.s "1")])
    (TImpl.mk [] ["x"]) [] [] []
    (SNode.container "ns" "c" "/c" [SNode.leaf "ns" "x" "/c/x" true])
    "x").2.2.2.1

/-- Witness for C5 at a concrete list node. -/
theorem claim_C5_witness :
    (p_process_list (ModelFilter.make ["/"] [])
      (PImpl.mk (N := Unit) [] [] (fun _ _ => [])) () [] true false
      (SNode.slist "ns" "l" "/l" ["k"] [])).2.1 = [] :=
  (claim_C5_keys_snapshot_invariant (ModelFilter.make ["/"] [])
    (PImpl.mk (N := Unit) [] [] (fun _ _ => [])) () [] true false
    (SNode.slist "ns" "l" "/l" ["k"] [])
    ⟨YValue.obj [], none, false⟩ (TImpl.mk [] []) [] []).1.1

/-- Witness for C10 at a concrete path and exclude list. -/
theorem claim_C10_witness :
    (ModelFilter.make [] ["/x"]).check "/a" = true :=
  (claim_C10_empty_include_means_everything "/a" ["/x"]).2.mpr (by decide)
